import Mathlib

/-!
Shallow embedding of the `rsa-decrypt-timing` program (`src/main.rs`).

The program decrypts fixed-size ciphertext blocks read from an input file
with an RSA private key (PKCS#1 v1.5 padding), measures the wall-clock
duration of each decrypt call, and writes one decimal duration per line to
an output file.  The embedding models:

* the input stream as a `List Nat` of bytes;
* the decrypt primitive as an oracle `List Nat → Option (List Nat)`
  (`none` = decryption failure, `some pt` = the bytes written into the
  prefix of the reused output buffer);
* measured durations as an oracle `Nat → Nat` indexed by the 1-based
  iteration counter (wall-clock time is external nondeterminism);
* per-iteration success of the duration write as an oracle `Nat → Bool`;
* the startup sequence (open input, create output, read key, parse key,
  RSA identity check, decrypter setup) with explicit failure switches and
  an event list recording the order of side effects.

The `while reader.read_exact(&mut in_buf).is_ok()` loop is embedded as a
fueled recursion; `mainRun` passes `input.length` as fuel, which is enough
because each iteration consumes `len ≥ 1` bytes.  (For an RSA key the
modulus byte-length is always positive; the embedded loop stops immediately
when `len = 0`.)
-/

namespace RsaTiming

/-- Algorithm identity of a parsed private key (`Pkey::id()` in the code). -/
inductive KeyId
  | rsa
  | ec
  | dsa
  | dh
deriving DecidableEq

/-- Abstract parsed private key: its algorithm id, its modulus byte-length
(`Rsa::size()`), and the decrypt primitive configured with PKCS#1 padding.
`decrypt b = some pt` means the call succeeds and writes `pt` into the
prefix of the caller's output buffer; `none` means the call fails. -/
structure PKeyM where
  id : KeyId
  size : Nat
  decrypt : List Nat → Option (List Nat)

/-- Errors surfaced by the program, one per `bail!` / `.context(...)?` site. -/
inductive Err
  | openInputFail
  | createOutputFail
  | keyReadFail
  | keyParseFail
  | notRsa
  | decrypterFail
  | decryptFail (i : Nat)
  | writeFail
  | emptyInput
deriving DecidableEq

/-- The error message attached at each failure site in the code. -/
def errMsg : Err → String
  | .openInputFail => "Failed to open input file"
  | .createOutputFail => "Failed to create output file"
  | .keyReadFail => "Failed to read key file"
  | .keyParseFail => "Failed to parse private key from PEM file"
  | .notRsa => "The provided key is not an RSA key"
  | .decrypterFail => "Failed to set decrypter key"
  | .decryptFail i => "Failed to decrypt on iteration " ++ Nat.repr i
  | .writeFail => "failed to write duration"
  | .emptyInput => "Failed to read input file: too small"

/-- Observable side effects of a run, in program order. -/
inductive Event
  | inputOpened
  | outputCreated
  | keyFileRead
  | keyParsed
  | rsaChecked
  | decrypterSet
  | blockRead (j : Nat)
  | decrypted (j : Nat)
  | traceWrote (d : Nat)
deriving DecidableEq

/-- Events touching an input block: reading it, decrypting it, or recording
its duration. -/
def Event.isBlock : Event → Bool
  | .blockRead _ => true
  | .decrypted _ => true
  | .traceWrote _ => true
  | _ => false

/-- The environment a run executes in: failure switches for the external
operations, the key file bytes and the key parser, the input stream bytes,
the echo flag, and the duration / write-success oracles. -/
structure Env where
  inputOk : Bool
  outputOk : Bool
  keyFile : Option (List Nat)
  parseKey : List Nat → Option PKeyM
  decrypterOk : Bool
  input : List Nat
  echo : Bool
  durs : Nat → Nat
  writeOk : Nat → Bool

/-- Writing the decrypt output into the reused output buffer: the returned
plaintext overwrites the prefix, the remaining bytes keep their previous
values, and the buffer length never changes. -/
def overwrite (buf pt : List Nat) : List Nat :=
  pt.take buf.length ++ buf.drop pt.length

/-- The `j`-th (0-based) block of `len` bytes of the input stream. -/
def blockAt (len : Nat) (input : List Nat) (j : Nat) : List Nat :=
  (input.drop (j * len)).take len

/-- State carried by the decrypt-and-measure loop. -/
structure LoopAcc where
  i : Nat
  buf : List Nat
  trace : List Nat
  echoes : List (List Nat)
  err : Option Err
  events : List Event

/-- The `while reader.read_exact(&mut in_buf).is_ok()` loop of `main`,
fueled.  Each iteration: read one full block (stop when fewer than `len`
bytes remain, silently discarding the partial tail), increment the counter,
call the timed decrypt (bailing with the 1-based index on failure), echo
the full output buffer when the echo flag is set, and append the measured
duration to the trace (bailing on write failure). -/
def loop (len : Nat) (dec : List Nat → Option (List Nat)) (echo : Bool)
    (durs : Nat → Nat) (writeOk : Nat → Bool) :
    Nat → List Nat → LoopAcc → LoopAcc
  | 0, _, acc => acc
  | fuel + 1, input, acc =>
    if 0 < len ∧ len ≤ input.length then
      let i' := acc.i + 1
      match dec (input.take len) with
      | none =>
          { acc with
            i := i'
            err := some (.decryptFail i')
            events := acc.events ++ [.blockRead i'] }
      | some pt =>
          let buf' := overwrite acc.buf pt
          let echoes' := if echo then acc.echoes ++ [buf'] else acc.echoes
          if writeOk i' then
            loop len dec echo durs writeOk fuel (input.drop len)
              { i := i'
                buf := buf'
                trace := acc.trace ++ [durs i']
                echoes := echoes'
                err := none
                events := acc.events ++
                  [.blockRead i', .decrypted i', .traceWrote (durs i')] }
          else
            { acc with
              i := i'
              buf := buf'
              echoes := echoes'
              err := some .writeFail
              events := acc.events ++ [.blockRead i', .decrypted i'] }
    else acc

/-- Result of a whole run. -/
structure RunResult where
  err : Option Err
  count : Nat
  trace : List Nat
  echoes : List (List Nat)
  outCreated : Bool
  events : List Event

/-- Terminal state of the loop controller. -/
inductive Status
  | finished
  | failed (e : Err)
deriving DecidableEq

/-- A run is `finished` when no error occurred, otherwise `failed`. -/
def RunResult.status (r : RunResult) : Status :=
  match r.err with
  | none => .finished
  | some e => .failed e

/-- Process exit code: `0` on success, nonzero on any error
(`anyhow::Result` from `main`). -/
def exitCode (r : RunResult) : Nat :=
  match r.err with
  | none => 0
  | some _ => 1

/-- The lines of the output file: one decimal duration per line. -/
def outLines (r : RunResult) : List String :=
  r.trace.map (fun d => Nat.repr d ++ "\n")

/-- Content of the output file, `none` when it was never created. -/
def outContent (r : RunResult) : Option (List String) :=
  if r.outCreated then some (outLines r) else none

/-- Events that have happened by the time the loop starts. -/
def preEvents : List Event :=
  [.inputOpened, .outputCreated, .keyFileRead, .keyParsed, .rsaChecked,
   .decrypterSet]

/-- Initial loop state: zero iterations, zero-filled output buffer. -/
def acc0 (len : Nat) : LoopAcc :=
  { i := 0
    buf := List.replicate len 0
    trace := []
    echoes := []
    err := none
    events := preEvents }

/-- The post-loop bookkeeping of `main`: surface a loop error, and report
`emptyInput` when the loop never processed a block. -/
def finishLoop (A : LoopAcc) : RunResult :=
  match A.err with
  | some e =>
      { err := some e
        count := A.i
        trace := A.trace
        echoes := A.echoes
        outCreated := true
        events := A.events }
  | none =>
      if A.i = 0 then
        { err := some .emptyInput
          count := A.i
          trace := A.trace
          echoes := A.echoes
          outCreated := true
          events := A.events }
      else
        { err := none
          count := A.i
          trace := A.trace
          echoes := A.echoes
          outCreated := true
          events := A.events }

/-- The whole program: open input, create output, read and parse the key,
check the key is RSA, set up the decrypter, then run the loop over the
input stream. -/
def mainRun (env : Env) : RunResult :=
  if env.inputOk then
    if env.outputOk then
      match env.keyFile with
      | none =>
          { err := some .keyReadFail
            count := 0
            trace := []
            echoes := []
            outCreated := true
            events := [.inputOpened, .outputCreated] }
      | some kf =>
        match env.parseKey kf with
        | none =>
            { err := some .keyParseFail
              count := 0
              trace := []
              echoes := []
              outCreated := true
              events := [.inputOpened, .outputCreated, .keyFileRead] }
        | some pk =>
          if pk.id = KeyId.rsa then
            if env.decrypterOk then
              finishLoop (loop pk.size pk.decrypt env.echo env.durs
                env.writeOk env.input.length env.input (acc0 pk.size))
            else
              { err := some .decrypterFail
                count := 0
                trace := []
                echoes := []
                outCreated := true
                events := [.inputOpened, .outputCreated, .keyFileRead,
                  .keyParsed, .rsaChecked] }
          else
            { err := some .notRsa
              count := 0
              trace := []
              echoes := []
              outCreated := true
              events := [.inputOpened, .outputCreated, .keyFileRead,
                .keyParsed] }
    else
      { err := some .createOutputFail
        count := 0
        trace := []
        echoes := []
        outCreated := false
        events := [.inputOpened] }
  else
    { err := some .openInputFail
      count := 0
      trace := []
      echoes := []
      outCreated := false
      events := [] }

/-- Whether a byte is a UTF-8 continuation byte (`0x80..0xBF`). -/
def isCont (b : Nat) : Bool :=
  0x80 ≤ b && b ≤ 0xBF

/-- UTF-8 validity of a byte sequence, exactly the check performed by
`str::from_utf8` (shortest-form encodings only, surrogates rejected,
code points up to `U+10FFFF`). -/
def utf8Valid : List Nat → Bool
  | [] => true
  | b :: rest =>
    if b < 0x80 then utf8Valid rest
    else
      match rest with
      | [] => false
      | c1 :: r1 =>
        if 0xC2 ≤ b && b ≤ 0xDF then isCont c1 && utf8Valid r1
        else
          match r1 with
          | [] => false
          | c2 :: r2 =>
            if b == 0xE0 then
              (0xA0 ≤ c1 && c1 ≤ 0xBF) && isCont c2 && utf8Valid r2
            else if (0xE1 ≤ b && b ≤ 0xEC) || b == 0xEE || b == 0xEF then
              isCont c1 && isCont c2 && utf8Valid r2
            else if b == 0xED then
              (0x80 ≤ c1 && c1 ≤ 0x9F) && isCont c2 && utf8Valid r2
            else
              match r2 with
              | [] => false
              | c3 :: r3 =>
                if b == 0xF0 then
                  (0x90 ≤ c1 && c1 ≤ 0xBF) && isCont c2 && isCont c3 &&
                    utf8Valid r3
                else if 0xF1 ≤ b && b ≤ 0xF3 then
                  isCont c1 && isCont c2 && isCont c3 && utf8Valid r3
                else if b == 0xF4 then
                  (0x80 ≤ c1 && c1 ≤ 0x8F) && isCont c2 && isCont c3 &&
                    utf8Valid r3
                else false

/-- One uppercase hexadecimal digit as an ASCII code. -/
def hexDigit (n : Nat) : Nat :=
  if n < 10 then 48 + n else 55 + n

/-- One byte rendered as two uppercase hexadecimal ASCII characters, the
`print!("{b:02X?}")` of the code. -/
def hexByte (b : Nat) : List Nat :=
  [hexDigit (b / 16), hexDigit (b % 16)]

/-- All bytes rendered as concatenated two-digit uppercase hex. -/
def hexConcat : List Nat → List Nat
  | [] => []
  | b :: r => hexByte b ++ hexConcat r

/-- `print_stdout`: the console bytes produced for the data it receives.
Valid UTF-8 data is printed verbatim followed by one newline; otherwise
every byte is printed as two uppercase hex characters, with no newline. -/
def echoOut (data : List Nat) : List Nat :=
  if utf8Valid data then data ++ [10] else hexConcat data

/-- The sequence of output-buffer states handed to the echo printer along a
run of `n` successfully decrypted blocks, starting from buffer `buf`. -/
def bufChain (len : Nat) (dec : List Nat → Option (List Nat)) :
    Nat → List Nat → List Nat → List (List Nat)
  | 0, _, _ => []
  | n + 1, input, buf =>
    let buf' := overwrite buf ((dec (input.take len)).getD [])
    buf' :: bufChain len dec n (input.drop len) buf'

/-! ### Basic lemmas about the embedded operations -/

theorem overwrite_length (buf pt : List Nat) :
    (overwrite buf pt).length = buf.length := by
  simp only [overwrite, List.length_append, List.length_take,
    List.length_drop]
  omega

theorem blockAt_zero (len : Nat) (input : List Nat) :
    blockAt len input 0 = input.take len := by
  simp [blockAt]

theorem blockAt_drop (len : Nat) (input : List Nat) (j : Nat) :
    blockAt len (input.drop len) j = blockAt len input (j + 1) := by
  simp only [blockAt, List.drop_drop]
  congr 2
  ring

theorem bufChain_length (len : Nat) (dec : List Nat → Option (List Nat)) :
    ∀ (n : Nat) (input buf : List Nat) (d : List Nat),
      d ∈ bufChain len dec n input buf → d.length = buf.length := by
  intro n
  induction n with
  | zero => intro input buf d hd; simp [bufChain] at hd
  | succ n ih =>
    intro input buf d hd
    simp only [bufChain, List.mem_cons] at hd
    rcases hd with hd | hd
    · rw [hd, overwrite_length]
    · rw [ih _ _ _ hd, overwrite_length]

/-! ### Step lemmas for the decrypt-and-measure loop -/

theorem loop_stop (len : Nat) (dec : List Nat → Option (List Nat))
    (echo : Bool) (durs : Nat → Nat) (writeOk : Nat → Bool)
    (fuel : Nat) (input : List Nat) (acc : LoopAcc)
    (h : ¬(0 < len ∧ len ≤ input.length)) :
    loop len dec echo durs writeOk fuel input acc = acc := by
  cases fuel with
  | zero => rfl
  | succ f => simp only [loop]; rw [if_neg h]

theorem loop_step_fail (len : Nat) (dec : List Nat → Option (List Nat))
    (echo : Bool) (durs : Nat → Nat) (writeOk : Nat → Bool)
    (f : Nat) (input : List Nat) (acc : LoopAcc)
    (hlen : 0 < len) (hle : len ≤ input.length)
    (hd : dec (input.take len) = none) :
    loop len dec echo durs writeOk (f + 1) input acc =
      { acc with
        i := acc.i + 1
        err := some (.decryptFail (acc.i + 1))
        events := acc.events ++ [.blockRead (acc.i + 1)] } := by
  simp only [loop]
  rw [if_pos ⟨hlen, hle⟩, hd]

theorem loop_step_ok (len : Nat) (dec : List Nat → Option (List Nat))
    (echo : Bool) (durs : Nat → Nat) (writeOk : Nat → Bool)
    (f : Nat) (input : List Nat) (acc : LoopAcc) (pt : List Nat)
    (hlen : 0 < len) (hle : len ≤ input.length)
    (hd : dec (input.take len) = some pt)
    (hw : writeOk (acc.i + 1) = true) :
    loop len dec echo durs writeOk (f + 1) input acc =
      loop len dec echo durs writeOk f (input.drop len)
        { i := acc.i + 1
          buf := overwrite acc.buf pt
          trace := acc.trace ++ [durs (acc.i + 1)]
          echoes := if echo then acc.echoes ++ [overwrite acc.buf pt]
            else acc.echoes
          err := none
          events := acc.events ++ [.blockRead (acc.i + 1),
            .decrypted (acc.i + 1), .traceWrote (durs (acc.i + 1))] } := by
  simp only [loop]
  rw [if_pos ⟨hlen, hle⟩, hd]
  simp only [hw, if_true]

theorem loop_step_wfail (len : Nat) (dec : List Nat → Option (List Nat))
    (echo : Bool) (durs : Nat → Nat) (writeOk : Nat → Bool)
    (f : Nat) (input : List Nat) (acc : LoopAcc) (pt : List Nat)
    (hlen : 0 < len) (hle : len ≤ input.length)
    (hd : dec (input.take len) = some pt)
    (hw : writeOk (acc.i + 1) = false) :
    loop len dec echo durs writeOk (f + 1) input acc =
      { acc with
        i := acc.i + 1
        buf := overwrite acc.buf pt
        echoes := if echo then acc.echoes ++ [overwrite acc.buf pt]
          else acc.echoes
        err := some .writeFail
        events := acc.events ++ [.blockRead (acc.i + 1),
          .decrypted (acc.i + 1)] } := by
  simp only [loop]
  rw [if_pos ⟨hlen, hle⟩, hd]
  simp only [hw, Bool.false_eq_true, if_false]

/-- Master lemma for a successful run of the loop: if the input holds
exactly `n` more full blocks, every one of them decrypts successfully and
every duration write succeeds, the loop finishes cleanly having processed
all `n` blocks, appending one duration per block to the trace in stream
order and echoing the successive buffer states when the echo flag is set. -/
theorem loop_ok (len : Nat) (dec : List Nat → Option (List Nat))
    (echo : Bool) (durs : Nat → Nat) (writeOk : Nat → Bool) :
    ∀ (n fuel : Nat) (input : List Nat) (acc : LoopAcc),
      0 < len →
      n * len ≤ input.length →
      input.length < n * len + len →
      (∀ j, j < n → (dec (blockAt len input j)).isSome = true) →
      (∀ j, j < n → writeOk (acc.i + j + 1) = true) →
      input.length ≤ fuel →
      acc.err = none →
      (loop len dec echo durs writeOk fuel input acc).err = none ∧
      (loop len dec echo durs writeOk fuel input acc).i = acc.i + n ∧
      (loop len dec echo durs writeOk fuel input acc).trace =
        acc.trace ++ (List.range n).map (fun j => durs (acc.i + j + 1)) ∧
      (loop len dec echo durs writeOk fuel input acc).echoes =
        acc.echoes ++
          (if echo then bufChain len dec n input acc.buf else []) := by
  intro n
  induction n with
  | zero =>
    intro fuel input acc hlen h0 h1 _ _ _ herr
    rw [loop_stop len dec echo durs writeOk fuel input acc (by omega)]
    refine ⟨herr, by omega, by simp, ?_⟩
    cases echo <;> simp [bufChain]
  | succ n ih =>
    intro fuel input acc hlen h0 h1 hdec hw hfuel herr
    rw [Nat.succ_mul] at h0 h1
    have hle : len ≤ input.length := by
      have hnn : 0 ≤ n * len := Nat.zero_le _
      omega
    cases fuel with
    | zero => omega
    | succ f =>
      obtain ⟨pt, hpt⟩ := Option.isSome_iff_exists.mp
        (by simpa [blockAt_zero] using hdec 0 (Nat.succ_pos n))
      have hw1 : writeOk (acc.i + 1) = true := by
        simpa using hw 0 (Nat.succ_pos n)
      rw [loop_step_ok len dec echo durs writeOk f input acc pt hlen hle hpt
        hw1]
      have hdrop : (input.drop len).length = input.length - len := by
        simp
      obtain ⟨H1, H2, H3, H4⟩ := ih f (input.drop len)
        { i := acc.i + 1
          buf := overwrite acc.buf pt
          trace := acc.trace ++ [durs (acc.i + 1)]
          echoes := if echo then acc.echoes ++ [overwrite acc.buf pt]
            else acc.echoes
          err := none
          events := acc.events ++ [.blockRead (acc.i + 1),
            .decrypted (acc.i + 1), .traceWrote (durs (acc.i + 1))] }
        hlen
        (by rw [hdrop]; omega)
        (by rw [hdrop]; omega)
        (by
          intro j hj
          rw [blockAt_drop]
          exact hdec (j + 1) (by omega))
        (by
          intro j hj
          have he : acc.i + 1 + j + 1 = acc.i + (j + 1) + 1 := by omega
          show writeOk (acc.i + 1 + j + 1) = true
          rw [he]
          exact hw (j + 1) (by omega))
        (by rw [hdrop]; omega)
        rfl
      refine ⟨H1, ?_, ?_, ?_⟩
      · rw [H2]
        show acc.i + 1 + n = acc.i + (n + 1)
        omega
      · rw [H3]
        have hf : (fun j => durs (acc.i + 1 + j + 1)) =
            (fun j => durs (acc.i + (j + 1) + 1)) := by
          funext j
          congr 1
          omega
        simp only [List.range_succ_eq_map, List.map_cons, List.map_map]
        simp only [hf]
        simp [Function.comp_def]
      · rw [H4]
        have hchain : bufChain len dec (n + 1) input acc.buf =
            overwrite acc.buf pt ::
              bufChain len dec n (input.drop len) (overwrite acc.buf pt) := by
          simp [bufChain, hpt]
        cases echo <;> simp [hchain]

/-- Master lemma for a failing run of the loop: if the first `m` blocks
decrypt successfully with successful writes, the input still holds an
`(m+1)`-st full block, and that block fails to decrypt, the loop stops with
a `decryptFail` error carrying the 1-based index of the failing block and a
trace holding exactly the durations of the first `m` blocks. -/
theorem loop_fail (len : Nat) (dec : List Nat → Option (List Nat))
    (echo : Bool) (durs : Nat → Nat) (writeOk : Nat → Bool) :
    ∀ (m fuel : Nat) (input : List Nat) (acc : LoopAcc),
      0 < len →
      m * len + len ≤ input.length →
      (∀ j, j < m → (dec (blockAt len input j)).isSome = true) →
      (∀ j, j < m → writeOk (acc.i + j + 1) = true) →
      dec (blockAt len input m) = none →
      input.length ≤ fuel →
      (loop len dec echo durs writeOk fuel input acc).err =
        some (.decryptFail (acc.i + m + 1)) ∧
      (loop len dec echo durs writeOk fuel input acc).i = acc.i + m + 1 ∧
      (loop len dec echo durs writeOk fuel input acc).trace =
        acc.trace ++ (List.range m).map (fun j => durs (acc.i + j + 1)) := by
  intro m
  induction m with
  | zero =>
    intro fuel input acc hlen h0 _ _ hfail hfuel
    have hle : len ≤ input.length := by omega
    cases fuel with
    | zero => omega
    | succ f =>
      rw [blockAt_zero] at hfail
      rw [loop_step_fail len dec echo durs writeOk f input acc hlen hle
        hfail]
      exact ⟨rfl, rfl, by simp⟩
  | succ m ih =>
    intro fuel input acc hlen h0 hdec hw hfail hfuel
    rw [Nat.succ_mul] at h0
    have hle : len ≤ input.length := by
      have hnn : 0 ≤ m * len := Nat.zero_le _
      omega
    cases fuel with
    | zero => omega
    | succ f =>
      obtain ⟨pt, hpt⟩ := Option.isSome_iff_exists.mp
        (by simpa [blockAt_zero] using hdec 0 (Nat.succ_pos m))
      have hw1 : writeOk (acc.i + 1) = true := by
        simpa using hw 0 (Nat.succ_pos m)
      rw [loop_step_ok len dec echo durs writeOk f input acc pt hlen hle hpt
        hw1]
      have hdrop : (input.drop len).length = input.length - len := by
        simp
      obtain ⟨H1, H2, H3⟩ := ih f (input.drop len)
        { i := acc.i + 1
          buf := overwrite acc.buf pt
          trace := acc.trace ++ [durs (acc.i + 1)]
          echoes := if echo then acc.echoes ++ [overwrite acc.buf pt]
            else acc.echoes
          err := none
          events := acc.events ++ [.blockRead (acc.i + 1),
            .decrypted (acc.i + 1), .traceWrote (durs (acc.i + 1))] }
        hlen
        (by rw [hdrop]; omega)
        (by
          intro j hj
          rw [blockAt_drop]
          exact hdec (j + 1) (by omega))
        (by
          intro j hj
          have he : acc.i + 1 + j + 1 = acc.i + (j + 1) + 1 := by omega
          show writeOk (acc.i + 1 + j + 1) = true
          rw [he]
          exact hw (j + 1) (by omega))
        (by rw [blockAt_drop]; exact hfail)
        (by rw [hdrop]; omega)
      refine ⟨?_, ?_, ?_⟩
      · rw [H1]
        show some (Err.decryptFail (acc.i + 1 + m + 1)) =
          some (Err.decryptFail (acc.i + (m + 1) + 1))
        have he2 : acc.i + 1 + m + 1 = acc.i + (m + 1) + 1 := by omega
        rw [he2]
      · rw [H2]
        show acc.i + 1 + m + 1 = acc.i + (m + 1) + 1
        omega
      rw [H3]
      have hf : (fun j => durs (acc.i + 1 + j + 1)) =
          (fun j => durs (acc.i + (j + 1) + 1)) := by
        funext j
        congr 1
        omega
      simp only [List.range_succ_eq_map, List.map_cons, List.map_map]
      simp only [hf]
      simp [Function.comp_def]

/-- The echo flag never influences the loop's counter, buffer, trace,
error, or event list: two loop runs differing only in the echo flag (and
possibly in previously accumulated echo data) agree on every other
component of the state. -/
theorem loop_echo_indep (len : Nat) (dec : List Nat → Option (List Nat))
    (durs : Nat → Nat) (writeOk : Nat → Bool) :
    ∀ (fuel : Nat) (input : List Nat) (e1 e2 : Bool) (acc1 acc2 : LoopAcc),
      acc1.i = acc2.i → acc1.buf = acc2.buf → acc1.trace = acc2.trace →
      acc1.err = acc2.err → acc1.events = acc2.events →
      (loop len dec e1 durs writeOk fuel input acc1).i =
        (loop len dec e2 durs writeOk fuel input acc2).i ∧
      (loop len dec e1 durs writeOk fuel input acc1).buf =
        (loop len dec e2 durs writeOk fuel input acc2).buf ∧
      (loop len dec e1 durs writeOk fuel input acc1).trace =
        (loop len dec e2 durs writeOk fuel input acc2).trace ∧
      (loop len dec e1 durs writeOk fuel input acc1).err =
        (loop len dec e2 durs writeOk fuel input acc2).err ∧
      (loop len dec e1 durs writeOk fuel input acc1).events =
        (loop len dec e2 durs writeOk fuel input acc2).events := by
  intro fuel
  induction fuel with
  | zero =>
    intro input e1 e2 acc1 acc2 hi hb ht he hev
    exact ⟨hi, hb, ht, he, hev⟩
  | succ f ih =>
    intro input e1 e2 acc1 acc2 hi hb ht he hev
    by_cases hg : 0 < len ∧ len ≤ input.length
    · cases hd : dec (input.take len) with
      | none =>
        rw [loop_step_fail len dec e1 durs writeOk f input acc1 hg.1 hg.2 hd,
          loop_step_fail len dec e2 durs writeOk f input acc2 hg.1 hg.2 hd]
        refine ⟨by simp [hi], by simp [hb], by simp [ht], by simp [hi], ?_⟩
        simp [hev, hi]
      | some pt =>
        cases hwk : writeOk (acc1.i + 1) with
        | true =>
          rw [loop_step_ok len dec e1 durs writeOk f input acc1 pt hg.1 hg.2
            hd hwk,
            loop_step_ok len dec e2 durs writeOk f input acc2 pt hg.1 hg.2
            hd (by rw [← hi]; exact hwk)]
          exact ih (input.drop len) e1 e2 _ _ (by simp [hi]) (by simp [hb])
            (by simp [ht, hi]) rfl (by simp [hev, hi])
        | false =>
          rw [loop_step_wfail len dec e1 durs writeOk f input acc1 pt hg.1
            hg.2 hd hwk,
            loop_step_wfail len dec e2 durs writeOk f input acc2 pt hg.1
            hg.2 hd (by rw [← hi]; exact hwk)]
          refine ⟨by simp [hi], by simp [hb], by simp [ht], by simp, ?_⟩
          simp [hev, hi]
    · rw [loop_stop len dec e1 durs writeOk _ input acc1 hg,
        loop_stop len dec e2 durs writeOk _ input acc2 hg]
      exact ⟨hi, hb, ht, he, hev⟩

/-- Every failure path carries a nonempty, descriptive error message. -/
theorem errMsg_nonempty (e : Err) : errMsg e ≠ "" := by
  cases e with
  | decryptFail i =>
    intro h
    have hl := congrArg String.length h
    rw [errMsg, String.length_append] at hl
    have h31 : ("Failed to decrypt on iteration " : String).length = 31 := by
      decide
    have h0 : ("" : String).length = 0 := by decide
    omega
  | openInputFail => decide
  | createOutputFail => decide
  | keyReadFail => decide
  | keyParseFail => decide
  | notRsa => decide
  | decrypterFail => decide
  | writeFail => decide
  | emptyInput => decide

/-- Under a well-formed configuration (files open, key readable and
parseable, key is RSA, decrypter set up) the run is the loop over the
input stream followed by the post-loop bookkeeping. -/
theorem mainRun_eq_loop (env : Env) (kf : List Nat) (pk : PKeyM)
    (hin : env.inputOk = true) (hout : env.outputOk = true)
    (hkf : env.keyFile = some kf) (hpk : env.parseKey kf = some pk)
    (hid : pk.id = KeyId.rsa) (hdk : env.decrypterOk = true) :
    mainRun env = finishLoop (loop pk.size pk.decrypt env.echo env.durs
      env.writeOk env.input.length env.input (acc0 pk.size)) := by
  simp [mainRun, hin, hout, hkf, hpk, hid, hdk]

/-! ### Lemmas about the hex rendering of the echo path -/

theorem hexConcat_length (l : List Nat) :
    (hexConcat l).length = 2 * l.length := by
  induction l with
  | nil => simp [hexConcat]
  | cons b t ih =>
    simp only [hexConcat, hexByte, List.length_append, List.length_cons,
      List.length_nil, ih]
    omega

theorem hexDigit_range (n : Nat) (h : n < 16) :
    (48 ≤ hexDigit n ∧ hexDigit n ≤ 57) ∨
      (65 ≤ hexDigit n ∧ hexDigit n ≤ 70) := by
  unfold hexDigit
  split <;> omega

theorem hexConcat_mem (l : List Nat) (hb : ∀ b ∈ l, b < 256) :
    ∀ c ∈ hexConcat l, (48 ≤ c ∧ c ≤ 57) ∨ (65 ≤ c ∧ c ≤ 70) := by
  induction l with
  | nil => intro c hc; simp [hexConcat] at hc
  | cons b t ih =>
    intro c hc
    have hb256 : b < 256 := hb b (by simp)
    simp only [hexConcat, hexByte, List.cons_append, List.nil_append,
      List.mem_cons] at hc
    rcases hc with rfl | rfl | hc
    · exact hexDigit_range _ (by omega)
    · exact hexDigit_range _ (by omega)
    · exact ih (fun x hx => hb x (by simp [hx])) c hc

/-! ### Lemmas about the post-loop bookkeeping -/

theorem finishLoop_ok (A : LoopAcc) (h : A.err = none) (hi : A.i ≠ 0) :
    finishLoop A =
      { err := none
        count := A.i
        trace := A.trace
        echoes := A.echoes
        outCreated := true
        events := A.events } := by
  simp [finishLoop, h, hi]

theorem finishLoop_empty (A : LoopAcc) (h : A.err = none) (hi : A.i = 0) :
    finishLoop A =
      { err := some .emptyInput
        count := A.i
        trace := A.trace
        echoes := A.echoes
        outCreated := true
        events := A.events } := by
  simp [finishLoop, h, hi]

theorem finishLoop_err (A : LoopAcc) (e : Err) (h : A.err = some e) :
    finishLoop A =
      { err := some e
        count := A.i
        trace := A.trace
        echoes := A.echoes
        outCreated := true
        events := A.events } := by
  simp [finishLoop, h]

theorem finishLoop_echoes (A : LoopAcc) :
    (finishLoop A).echoes = A.echoes := by
  cases hA : A.err with
  | some e => simp [finishLoop, hA]
  | none =>
    simp only [finishLoop, hA]
    split <;> rfl

theorem finishLoop_congr (A1 A2 : LoopAcc) (hi : A1.i = A2.i)
    (ht : A1.trace = A2.trace) (he : A1.err = A2.err) :
    (finishLoop A1).err = (finishLoop A2).err ∧
    (finishLoop A1).count = (finishLoop A2).count ∧
    (finishLoop A1).trace = (finishLoop A2).trace := by
  cases hA : A2.err with
  | some e =>
    have hA1 : A1.err = some e := by rw [he, hA]
    rw [finishLoop_err A1 e hA1, finishLoop_err A2 e hA]
    exact ⟨rfl, hi, ht⟩
  | none =>
    have hA1 : A1.err = none := by rw [he, hA]
    by_cases hz : A2.i = 0
    · rw [finishLoop_empty A1 hA1 (by rw [hi, hz]),
        finishLoop_empty A2 hA hz]
      exact ⟨rfl, hi, ht⟩
    · rw [finishLoop_ok A1 hA1 (by rw [hi]; exact hz),
        finishLoop_ok A2 hA hz]
      exact ⟨rfl, hi, ht⟩

theorem status_eq_of_err (r1 r2 : RunResult) (h : r1.err = r2.err) :
    r1.status = r2.status := by
  unfold RunResult.status
  rw [h]

theorem exitCode_eq_of_err (r1 r2 : RunResult) (h : r1.err = r2.err) :
    exitCode r1 = exitCode r2 := by
  unfold exitCode
  rw [h]

/-! ### Concrete environments used to evaluate the theorems -/

/-- A 2-byte-modulus RSA key whose decrypt always succeeds. -/
def pkG : PKeyM :=
  { id := .rsa
    size := 2
    decrypt := fun b => some [b.headD 0 + 1] }

/-- A well-configured environment around `pkG` with two full input blocks. -/
def envG : Env :=
  { inputOk := true
    outputOk := true
    keyFile := some []
    parseKey := fun _ => some pkG
    decrypterOk := true
    input := [1, 2, 3, 4]
    echo := true
    durs := fun i => 10 * i
    writeOk := fun _ => true }

/-- A key whose decrypt fails exactly on the block `[3, 4]`. -/
def pkF : PKeyM :=
  { id := .rsa
    size := 2
    decrypt := fun b => if b = [3, 4] then none else some [0] }

/-- A non-RSA (elliptic-curve) key. -/
def pkEc : PKeyM :=
  { id := .ec
    size := 2
    decrypt := fun _ => some [] }

/-- A 2-byte-modulus key that decrypts every block to the single byte
`65` (the letter A). -/
def pkA : PKeyM :=
  { id := .rsa
    size := 2
    decrypt := fun _ => some [65] }

/-! ### The claims -/

/-- C1: for every RSA key with modulus byte-length `pk.size` and every
input stream of exactly `n ≥ 1` full blocks on which every decrypt call
succeeds (and every duration write goes through), the run reaches
`finished` with exit code 0 and the trace holds exactly `n` lines, one per
block in stream order, each the decimal representation of the non-negative
measured duration. -/
theorem claim1_full_blocks (env : Env) (kf : List Nat) (pk : PKeyM)
    (n : Nat)
    (hin : env.inputOk = true) (hout : env.outputOk = true)
    (hkf : env.keyFile = some kf) (hpk : env.parseKey kf = some pk)
    (hid : pk.id = KeyId.rsa) (hdk : env.decrypterOk = true)
    (hlen : 0 < pk.size) (hn : 1 ≤ n)
    (hsz : env.input.length = n * pk.size)
    (hdec : ∀ j, j < n →
      (pk.decrypt (blockAt pk.size env.input j)).isSome = true)
    (hw : ∀ j, j < n → env.writeOk (j + 1) = true) :
    (mainRun env).status = .finished ∧
    exitCode (mainRun env) = 0 ∧
    (mainRun env).count = n ∧
    (mainRun env).trace = (List.range n).map (fun j => env.durs (j + 1)) ∧
    outLines (mainRun env) =
      (List.range n).map (fun j => Nat.repr (env.durs (j + 1)) ++ "\n") := by
  rw [mainRun_eq_loop env kf pk hin hout hkf hpk hid hdk]
  obtain ⟨H1, H2, H3, H4⟩ := loop_ok pk.size pk.decrypt env.echo env.durs
    env.writeOk n env.input.length env.input (acc0 pk.size)
    hlen
    (le_of_eq hsz.symm)
    (by rw [hsz]; exact Nat.lt_add_of_pos_right hlen)
    hdec
    (by
      intro j hj
      show env.writeOk (0 + j + 1) = true
      rw [Nat.zero_add]
      exact hw j hj)
    (le_refl _)
    rfl
  have hi0 : (loop pk.size pk.decrypt env.echo env.durs env.writeOk
      env.input.length env.input (acc0 pk.size)).i = n := by
    rw [H2]
    show 0 + n = n
    omega
  have hne : (loop pk.size pk.decrypt env.echo env.durs env.writeOk
      env.input.length env.input (acc0 pk.size)).i ≠ 0 := by
    rw [hi0]; omega
  rw [finishLoop_ok _ H1 hne]
  have htr : (loop pk.size pk.decrypt env.echo env.durs env.writeOk
      env.input.length env.input (acc0 pk.size)).trace =
      (List.range n).map (fun j => env.durs (j + 1)) := by
    rw [H3]
    show [] ++ (List.range n).map (fun j => env.durs (0 + j + 1)) = _
    simp only [List.nil_append, Nat.zero_add]
  refine ⟨rfl, rfl, hi0, htr, ?_⟩
  simp only [outLines, htr, List.map_map, Function.comp_def]

/-- C2: for an input stream shorter than one full block (length `0`, or
anywhere strictly below the modulus byte-length), the run fails with the
empty-input error, terminates with a non-zero exit code, and the trace
contains no lines. -/
theorem claim2_short_input (env : Env) (kf : List Nat) (pk : PKeyM)
    (hin : env.inputOk = true) (hout : env.outputOk = true)
    (hkf : env.keyFile = some kf) (hpk : env.parseKey kf = some pk)
    (hid : pk.id = KeyId.rsa) (hdk : env.decrypterOk = true)
    (hshort : env.input.length < pk.size) :
    (mainRun env).status = .failed .emptyInput ∧
    exitCode (mainRun env) ≠ 0 ∧
    (mainRun env).count = 0 ∧
    (mainRun env).trace = [] ∧
    outLines (mainRun env) = [] := by
  rw [mainRun_eq_loop env kf pk hin hout hkf hpk hid hdk]
  rw [loop_stop pk.size pk.decrypt env.echo env.durs env.writeOk
    env.input.length env.input (acc0 pk.size) (by omega)]
  rw [finishLoop_empty (acc0 pk.size) rfl rfl]
  exact ⟨rfl, by simp [exitCode], rfl, rfl, rfl⟩

/-- C3: for an input stream of length `k·modulus_byte_length + r` with
`k ≥ 1` and `0 < r < modulus_byte_length`, on which every decrypt call
succeeds (and every write goes through), the run finishes successfully
with exactly `k` trace lines; the trailing `r` bytes are discarded without
any error. -/
theorem claim3_trailing_bytes (env : Env) (kf : List Nat) (pk : PKeyM)
    (k r : Nat)
    (hin : env.inputOk = true) (hout : env.outputOk = true)
    (hkf : env.keyFile = some kf) (hpk : env.parseKey kf = some pk)
    (hid : pk.id = KeyId.rsa) (hdk : env.decrypterOk = true)
    (hk : 1 ≤ k) (hr : 0 < r) (hrlt : r < pk.size)
    (hsz : env.input.length = k * pk.size + r)
    (hdec : ∀ j, j < k →
      (pk.decrypt (blockAt pk.size env.input j)).isSome = true)
    (hw : ∀ j, j < k → env.writeOk (j + 1) = true) :
    (mainRun env).status = .finished ∧
    exitCode (mainRun env) = 0 ∧
    (mainRun env).count = k ∧
    (mainRun env).trace = (List.range k).map (fun j => env.durs (j + 1)) := by
  have hlen : 0 < pk.size := by omega
  rw [mainRun_eq_loop env kf pk hin hout hkf hpk hid hdk]
  obtain ⟨H1, H2, H3, _⟩ := loop_ok pk.size pk.decrypt env.echo env.durs
    env.writeOk k env.input.length env.input (acc0 pk.size)
    hlen
    (by rw [hsz]; exact Nat.le_add_right _ _)
    (by rw [hsz]; exact Nat.add_lt_add_left hrlt _)
    hdec
    (by
      intro j hj
      show env.writeOk (0 + j + 1) = true
      rw [Nat.zero_add]
      exact hw j hj)
    (le_refl _)
    rfl
  have hi0 : (loop pk.size pk.decrypt env.echo env.durs env.writeOk
      env.input.length env.input (acc0 pk.size)).i = k := by
    rw [H2]
    show 0 + k = k
    omega
  have hne : (loop pk.size pk.decrypt env.echo env.durs env.writeOk
      env.input.length env.input (acc0 pk.size)).i ≠ 0 := by
    rw [hi0]; omega
  rw [finishLoop_ok _ H1 hne]
  refine ⟨rfl, rfl, hi0, ?_⟩
  rw [H3]
  show [] ++ (List.range k).map (fun j => env.durs (0 + j + 1)) = _
  simp only [List.nil_append, Nat.zero_add]

/-- C4: if the first `m` blocks decrypt successfully and the `(m+1)`-st
block read from the input fails to decrypt, the run fails with a
`decryptFail` error whose message identifies the 1-based index `m+1`, and
the trace contains exactly the durations of blocks `1 .. m`. -/
theorem claim4_decrypt_failure (env : Env) (kf : List Nat) (pk : PKeyM)
    (m : Nat)
    (hin : env.inputOk = true) (hout : env.outputOk = true)
    (hkf : env.keyFile = some kf) (hpk : env.parseKey kf = some pk)
    (hid : pk.id = KeyId.rsa) (hdk : env.decrypterOk = true)
    (hlen : 0 < pk.size)
    (hsz : m * pk.size + pk.size ≤ env.input.length)
    (hdec : ∀ j, j < m →
      (pk.decrypt (blockAt pk.size env.input j)).isSome = true)
    (hw : ∀ j, j < m → env.writeOk (j + 1) = true)
    (hfail : pk.decrypt (blockAt pk.size env.input m) = none) :
    (mainRun env).status = .failed (.decryptFail (m + 1)) ∧
    exitCode (mainRun env) ≠ 0 ∧
    (mainRun env).count = m + 1 ∧
    (mainRun env).trace = (List.range m).map (fun j => env.durs (j + 1)) ∧
    errMsg (.decryptFail (m + 1)) =
      "Failed to decrypt on iteration " ++ Nat.repr (m + 1) := by
  rw [mainRun_eq_loop env kf pk hin hout hkf hpk hid hdk]
  obtain ⟨H1, H2, H3⟩ := loop_fail pk.size pk.decrypt env.echo env.durs
    env.writeOk m env.input.length env.input (acc0 pk.size)
    hlen
    hsz
    hdec
    (by
      intro j hj
      show env.writeOk (0 + j + 1) = true
      rw [Nat.zero_add]
      exact hw j hj)
    hfail
    (le_refl _)
  have hE : (loop pk.size pk.decrypt env.echo env.durs env.writeOk
      env.input.length env.input (acc0 pk.size)).err =
      some (.decryptFail (m + 1)) := by
    rw [H1]
    show some (Err.decryptFail (0 + m + 1)) = _
    rw [Nat.zero_add]
  rw [finishLoop_err _ _ hE]
  refine ⟨rfl, by simp [exitCode], ?_, ?_, rfl⟩
  · rw [H2]
    show 0 + m + 1 = m + 1
    omega
  · rw [H3]
    show [] ++ (List.range m).map (fun j => env.durs (0 + j + 1)) = _
    simp only [List.nil_append, Nat.zero_add]

/-- Environment whose decrypt yields the one-byte plaintext `[65]` ("A")
into a 2-byte output buffer. -/
def envA5 : Env :=
  { inputOk := true
    outputOk := true
    keyFile := some []
    parseKey := fun _ => some pkA
    decrypterOk := true
    input := [0, 0]
    echo := true
    durs := fun _ => 7
    writeOk := fun _ => true }

/-- C5 counterexample: the decrypted plaintext of block 1 is `[65]` ("A"),
which is valid UTF-8, yet the echo path receives the full 2-byte buffer
`[65, 0]` and prints `A` followed by a NUL byte and a newline, not exactly
the plaintext followed by one newline as the claim states. -/
theorem claim5_counterexample :
    pkA.decrypt (envA5.input.take 2) = some [65] ∧
    utf8Valid [65] = true ∧
    (mainRun envA5).echoes = [[65, 0]] ∧
    echoOut [65, 0] ≠ [65] ++ [10] := by
  decide

/-- C5 (amended): the echo printer operates on the data it is handed — the
full modulus-length output buffer, not the plaintext truncated to the
decrypt-returned length.  For data that is valid UTF-8 it prints exactly
that data followed by one newline; for data that is not valid UTF-8 it
prints each byte as exactly two uppercase hexadecimal characters (digits
`0-9` or letters `A-F`), with no separators and no trailing newline, so
the printed string has length exactly twice the data length. -/
theorem claim5_echo_rendering (data : List Nat) (hb : ∀ b ∈ data, b < 256) :
    (utf8Valid data = true → echoOut data = data ++ [10]) ∧
    (utf8Valid data = false →
      (echoOut data).length = 2 * data.length ∧
      (∀ c ∈ echoOut data, (48 ≤ c ∧ c ≤ 57) ∨ (65 ≤ c ∧ c ≤ 70)) ∧
      10 ∉ echoOut data) := by
  constructor
  · intro h
    simp [echoOut, h]
  · intro h
    refine ⟨by simp [echoOut, h, hexConcat_length], ?_, ?_⟩
    · intro c hc
      refine hexConcat_mem data hb c ?_
      simpa [echoOut, h] using hc
    · intro hmem
      have h10 := hexConcat_mem data hb 10 (by simpa [echoOut, h] using hmem)
      omega

/-- C6: if the provided private key parses but is not an RSA key, the run
fails at startup with the dedicated configuration error, before any input
block is read, decrypted, or recorded — it is never reported as a
per-block error. -/
theorem claim6_non_rsa_fatal (env : Env) (kf : List Nat) (pk : PKeyM)
    (hin : env.inputOk = true) (hout : env.outputOk = true)
    (hkf : env.keyFile = some kf) (hpk : env.parseKey kf = some pk)
    (hid : pk.id ≠ KeyId.rsa) :
    (mainRun env).status = .failed .notRsa ∧
    exitCode (mainRun env) ≠ 0 ∧
    (mainRun env).count = 0 ∧
    (mainRun env).trace = [] ∧
    (mainRun env).echoes = [] ∧
    (∀ e ∈ (mainRun env).events, e.isBlock = false) := by
  have hm : mainRun env =
      { err := some .notRsa
        count := 0
        trace := []
        echoes := []
        outCreated := true
        events := [.inputOpened, .outputCreated, .keyFileRead,
          .keyParsed] } := by
    simp [mainRun, hin, hout, hkf, hpk, hid]
  rw [hm]
  refine ⟨rfl, by simp [exitCode], rfl, rfl, rfl, by decide⟩

/-- The post-loop bookkeeping yields exit code 0 exactly when the run
finished with at least one processed block. -/
theorem exitCode_finishLoop (A : LoopAcc) :
    exitCode (finishLoop A) = 0 ↔
      (finishLoop A).status = .finished ∧ 0 < (finishLoop A).count := by
  cases hA : A.err with
  | some e =>
    rw [finishLoop_err A e hA]
    simp [exitCode, RunResult.status]
  | none =>
    by_cases hz : A.i = 0
    · rw [finishLoop_empty A hA hz]
      simp [exitCode, RunResult.status, hz]
    · rw [finishLoop_ok A hA hz]
      simp [exitCode, RunResult.status]
      omega

/-- C7: the process exits with code 0 exactly when the run reaches the
`finished` state with at least one processed block; every failure path
terminates with a non-zero status and carries a nonempty descriptive error
message. -/
theorem claim7_exit_code (env : Env) :
    (exitCode (mainRun env) = 0 ↔
      (mainRun env).status = .finished ∧ 0 < (mainRun env).count) ∧
    ∀ e, (mainRun env).err = some e → errMsg e ≠ "" := by
  refine ⟨?_, fun e _ => errMsg_nonempty e⟩
  by_cases hin : env.inputOk = true
  · by_cases hout : env.outputOk = true
    · cases hkf : env.keyFile with
      | none => simp [mainRun, hin, hout, hkf, exitCode, RunResult.status]
      | some kf =>
        cases hpk : env.parseKey kf with
        | none => simp [mainRun, hin, hout, hkf, hpk, exitCode,
            RunResult.status]
        | some pk =>
          by_cases hid : pk.id = KeyId.rsa
          · by_cases hdk : env.decrypterOk = true
            · rw [mainRun_eq_loop env kf pk hin hout hkf hpk hid hdk]
              exact exitCode_finishLoop _
            · simp [mainRun, hin, hout, hkf, hpk, hid, hdk, exitCode,
                RunResult.status]
          · simp [mainRun, hin, hout, hkf, hpk, hid, exitCode,
              RunResult.status]
    · simp [mainRun, hin, hout, exitCode, RunResult.status]
  · simp [mainRun, hin, exitCode, RunResult.status]

/-- C8: two runs that differ only in the echo flag produce identical
traces, identical errors, identical counts, identical terminal states and
identical exit codes — the console echo path never interferes with the
recorded timing trace. -/
theorem claim8_echo_noninterference (env : Env) (b1 b2 : Bool) :
    (mainRun { env with echo := b1 }).trace =
      (mainRun { env with echo := b2 }).trace ∧
    (mainRun { env with echo := b1 }).err =
      (mainRun { env with echo := b2 }).err ∧
    (mainRun { env with echo := b1 }).count =
      (mainRun { env with echo := b2 }).count ∧
    (mainRun { env with echo := b1 }).status =
      (mainRun { env with echo := b2 }).status ∧
    exitCode (mainRun { env with echo := b1 }) =
      exitCode (mainRun { env with echo := b2 }) := by
  have main :
      (mainRun { env with echo := b1 }).trace =
        (mainRun { env with echo := b2 }).trace ∧
      (mainRun { env with echo := b1 }).err =
        (mainRun { env with echo := b2 }).err ∧
      (mainRun { env with echo := b1 }).count =
        (mainRun { env with echo := b2 }).count := by
    have hopt : ∀ {α : Type} (o : Option α), o = none ∨ ∃ x, o = some x := by
      intro α o
      cases o with
      | none => exact Or.inl rfl
      | some x => exact Or.inr ⟨x, rfl⟩
    by_cases hin : env.inputOk = true
    · by_cases hout : env.outputOk = true
      · rcases hopt env.keyFile with hkf | ⟨kf, hkf⟩
        · have hsame : mainRun { env with echo := b1 } =
              mainRun { env with echo := b2 } := by
            simp [mainRun, hin, hout, hkf]
          rw [hsame]
          exact ⟨rfl, rfl, rfl⟩
        · rcases hopt (env.parseKey kf) with hpk | ⟨pk, hpk⟩
          · have hsame : mainRun { env with echo := b1 } =
                mainRun { env with echo := b2 } := by
              simp [mainRun, hin, hout, hkf, hpk]
            rw [hsame]
            exact ⟨rfl, rfl, rfl⟩
          ·
            by_cases hid : pk.id = KeyId.rsa
            · by_cases hdk : env.decrypterOk = true
              · rw [mainRun_eq_loop { env with echo := b1 } kf pk hin hout
                  hkf hpk hid hdk,
                  mainRun_eq_loop { env with echo := b2 } kf pk hin hout
                  hkf hpk hid hdk]
                obtain ⟨hI, _, hT, hE, _⟩ := loop_echo_indep pk.size
                  pk.decrypt env.durs env.writeOk env.input.length
                  env.input b1 b2 (acc0 pk.size) (acc0 pk.size)
                  rfl rfl rfl rfl rfl
                obtain ⟨cE, cC, cT⟩ := finishLoop_congr _ _ hI hT hE
                exact ⟨cT, cE, cC⟩
              · have hsame : mainRun { env with echo := b1 } =
                    mainRun { env with echo := b2 } := by
                  simp [mainRun, hin, hout, hkf, hpk, hid, hdk]
                rw [hsame]
                exact ⟨rfl, rfl, rfl⟩
            · have hsame : mainRun { env with echo := b1 } =
                  mainRun { env with echo := b2 } := by
                simp [mainRun, hin, hout, hkf, hpk, hid]
              rw [hsame]
              exact ⟨rfl, rfl, rfl⟩
      · have hsame : mainRun { env with echo := b1 } =
            mainRun { env with echo := b2 } := by
          simp [mainRun, hin, hout]
        rw [hsame]
        exact ⟨rfl, rfl, rfl⟩
    · have hsame : mainRun { env with echo := b1 } =
          mainRun { env with echo := b2 } := by
        simp [mainRun, hin]
      rw [hsame]
      exact ⟨rfl, rfl, rfl⟩
  obtain ⟨hT, hE, hC⟩ := main
  exact ⟨hT, hE, hC, status_eq_of_err _ _ hE, exitCode_eq_of_err _ _ hE⟩

/-- C9: when echo mode is enabled, the data handed to the echo printer for
each block is the full modulus-length output buffer — the decrypt output
overwrites only its prefix, the rest holding zeros (first block) or
leftover bytes of earlier blocks — so every echoed datum has length
exactly `modulus_byte_length`, regardless of the plaintext length. -/
theorem claim9_echo_full_buffer (env : Env) (kf : List Nat) (pk : PKeyM)
    (n : Nat)
    (hin : env.inputOk = true) (hout : env.outputOk = true)
    (hkf : env.keyFile = some kf) (hpk : env.parseKey kf = some pk)
    (hid : pk.id = KeyId.rsa) (hdk : env.decrypterOk = true)
    (hlen : 0 < pk.size)
    (hecho : env.echo = true)
    (h0 : n * pk.size ≤ env.input.length)
    (h1 : env.input.length < n * pk.size + pk.size)
    (hdec : ∀ j, j < n →
      (pk.decrypt (blockAt pk.size env.input j)).isSome = true)
    (hw : ∀ j, j < n → env.writeOk (j + 1) = true) :
    (mainRun env).echoes =
      bufChain pk.size pk.decrypt n env.input (List.replicate pk.size 0) ∧
    ∀ d ∈ (mainRun env).echoes, d.length = pk.size := by
  rw [mainRun_eq_loop env kf pk hin hout hkf hpk hid hdk,
    finishLoop_echoes]
  obtain ⟨_, _, _, H4⟩ := loop_ok pk.size pk.decrypt env.echo env.durs
    env.writeOk n env.input.length env.input (acc0 pk.size)
    hlen h0 h1 hdec
    (by
      intro j hj
      show env.writeOk (0 + j + 1) = true
      rw [Nat.zero_add]
      exact hw j hj)
    (le_refl _)
    rfl
  have hech : (loop pk.size pk.decrypt env.echo env.durs env.writeOk
      env.input.length env.input (acc0 pk.size)).echoes =
      bufChain pk.size pk.decrypt n env.input
        (List.replicate pk.size 0) := by
    rw [H4, hecho]
    simp [acc0]
  refine ⟨hech, ?_⟩
  intro d hd
  rw [hech] at hd
  have := bufChain_length pk.size pk.decrypt n env.input
    (List.replicate pk.size 0) d hd
  rwa [List.length_replicate] at this

/-- C10: the output file is created (truncating any existing file) before
the private key is read, parsed, or validated, so every run failing with a
key-related configuration error (unreadable key file, unparseable PEM,
non-RSA key, decrypter setup failure) still leaves behind a newly created
empty output file. -/
theorem claim10_output_created_first (env : Env)
    (hin : env.inputOk = true) (hout : env.outputOk = true)
    (hkey : env.keyFile = none ∨
      (∃ kf, env.keyFile = some kf ∧ env.parseKey kf = none) ∨
      (∃ kf pk, env.keyFile = some kf ∧ env.parseKey kf = some pk ∧
        pk.id ≠ KeyId.rsa) ∨
      (∃ kf pk, env.keyFile = some kf ∧ env.parseKey kf = some pk ∧
        pk.id = KeyId.rsa ∧ env.decrypterOk = false)) :
    (mainRun env).outCreated = true ∧
    outContent (mainRun env) = some [] ∧
    (mainRun env).trace = [] ∧
    (mainRun env).events.take 2 = [.inputOpened, .outputCreated] ∧
    (∃ e, (mainRun env).err = some e ∧
      (e = .keyReadFail ∨ e = .keyParseFail ∨ e = .notRsa ∨
        e = .decrypterFail)) := by
  rcases hkey with hkf | ⟨kf, hkf, hpk⟩ | ⟨kf, pk, hkf, hpk, hid⟩ |
    ⟨kf, pk, hkf, hpk, hid, hdk⟩
  · have hm : mainRun env =
        { err := some .keyReadFail
          count := 0
          trace := []
          echoes := []
          outCreated := true
          events := [.inputOpened, .outputCreated] } := by
      simp [mainRun, hin, hout, hkf]
    rw [hm]
    exact ⟨rfl, rfl, rfl, rfl, ⟨.keyReadFail, rfl, Or.inl rfl⟩⟩
  · have hm : mainRun env =
        { err := some .keyParseFail
          count := 0
          trace := []
          echoes := []
          outCreated := true
          events := [.inputOpened, .outputCreated, .keyFileRead] } := by
      simp [mainRun, hin, hout, hkf, hpk]
    rw [hm]
    exact ⟨rfl, rfl, rfl, rfl, ⟨.keyParseFail, rfl, Or.inr (Or.inl rfl)⟩⟩
  · have hm : mainRun env =
        { err := some .notRsa
          count := 0
          trace := []
          echoes := []
          outCreated := true
          events := [.inputOpened, .outputCreated, .keyFileRead,
            .keyParsed] } := by
      simp [mainRun, hin, hout, hkf, hpk, hid]
    rw [hm]
    exact ⟨rfl, rfl, rfl, rfl, ⟨.notRsa, rfl, Or.inr (Or.inr (Or.inl rfl))⟩⟩
  · have hm : mainRun env =
        { err := some .decrypterFail
          count := 0
          trace := []
          echoes := []
          outCreated := true
          events := [.inputOpened, .outputCreated, .keyFileRead,
            .keyParsed, .rsaChecked] } := by
      simp [mainRun, hin, hout, hkf, hpk, hid, hdk]
    rw [hm]
    exact ⟨rfl, rfl, rfl, rfl,
      ⟨.decrypterFail, rfl, Or.inr (Or.inr (Or.inr rfl))⟩⟩

/-! ### Witnesses: the claim theorems evaluated at concrete runs -/

/-- `envG` with a 5-byte input: two full blocks and one trailing byte. -/
def envG3 : Env := { envG with input := [1, 2, 3, 4, 5] }

/-- `envG` with a 1-byte input: shorter than one block. -/
def envG2 : Env := { envG with input := [9] }

/-- `envG` keyed with `pkF`, whose decrypt fails on the second block. -/
def envG4 : Env := { envG with parseKey := fun _ => some pkF }

/-- `envG` keyed with the non-RSA key `pkEc`. -/
def envG6 : Env := { envG with parseKey := fun _ => some pkEc }

/-- `envG` with an unreadable key file. -/
def envG10 : Env := { envG with keyFile := none }

/-- C1 evaluated on a concrete two-block run. -/
theorem claim1_witness :
    (mainRun envG).status = .finished ∧
    exitCode (mainRun envG) = 0 ∧
    (mainRun envG).count = 2 ∧
    (mainRun envG).trace = (List.range 2).map (fun j => envG.durs (j + 1)) ∧
    outLines (mainRun envG) =
      (List.range 2).map (fun j => Nat.repr (envG.durs (j + 1)) ++ "\n") :=
  claim1_full_blocks envG [] pkG 2 rfl rfl rfl rfl rfl rfl (by decide)
    (by decide) (by decide) (by decide) (by decide)

/-- C2 evaluated on a concrete 1-byte input. -/
theorem claim2_witness :
    (mainRun envG2).status = .failed .emptyInput ∧
    exitCode (mainRun envG2) ≠ 0 ∧
    (mainRun envG2).count = 0 ∧
    (mainRun envG2).trace = [] ∧
    outLines (mainRun envG2) = [] :=
  claim2_short_input envG2 [] pkG rfl rfl rfl rfl rfl rfl (by decide)

/-- C3 evaluated on a concrete input of two blocks plus one trailing
byte. -/
theorem claim3_witness :
    (mainRun envG3).status = .finished ∧
    exitCode (mainRun envG3) = 0 ∧
    (mainRun envG3).count = 2 ∧
    (mainRun envG3).trace =
      (List.range 2).map (fun j => envG3.durs (j + 1)) :=
  claim3_trailing_bytes envG3 [] pkG 2 1 rfl rfl rfl rfl rfl rfl
    (by decide) (by decide) (by decide) (by decide) (by decide) (by decide)

/-- C4 evaluated on a concrete run whose second block fails to decrypt. -/
theorem claim4_witness :
    (mainRun envG4).status = .failed (.decryptFail 2) ∧
    exitCode (mainRun envG4) ≠ 0 ∧
    (mainRun envG4).count = 2 ∧
    (mainRun envG4).trace =
      (List.range 1).map (fun j => envG4.durs (j + 1)) ∧
    errMsg (.decryptFail 2) =
      "Failed to decrypt on iteration " ++ Nat.repr 2 :=
  claim4_decrypt_failure envG4 [] pkF 1 rfl rfl rfl rfl rfl rfl
    (by decide) (by decide) (by decide) (by decide) (by decide)

/-- C5 (amended) evaluated on the concrete non-UTF-8 datum `[255]`. -/
theorem claim5_witness :
    (utf8Valid [255] = true → echoOut [255] = [255] ++ [10]) ∧
    (utf8Valid [255] = false →
      (echoOut [255]).length = 2 * ([255] : List Nat).length ∧
      (∀ c ∈ echoOut [255], (48 ≤ c ∧ c ≤ 57) ∨ (65 ≤ c ∧ c ≤ 70)) ∧
      10 ∉ echoOut [255]) :=
  claim5_echo_rendering [255] (by decide)

/-- C6 evaluated on a concrete run with an elliptic-curve key. -/
theorem claim6_witness :
    (mainRun envG6).status = .failed .notRsa ∧
    exitCode (mainRun envG6) ≠ 0 ∧
    (mainRun envG6).count = 0 ∧
    (mainRun envG6).trace = [] ∧
    (mainRun envG6).echoes = [] ∧
    (∀ e ∈ (mainRun envG6).events, e.isBlock = false) :=
  claim6_non_rsa_fatal envG6 [] pkEc rfl rfl rfl rfl (by decide)

/-- C9 evaluated on a concrete two-block echoing run. -/
theorem claim9_witness :
    (mainRun envG).echoes =
      bufChain pkG.size pkG.decrypt 2 envG.input
        (List.replicate pkG.size 0) ∧
    ∀ d ∈ (mainRun envG).echoes, d.length = pkG.size :=
  claim9_echo_full_buffer envG [] pkG 2 rfl rfl rfl rfl rfl rfl
    (by decide) rfl (by decide) (by decide) (by decide) (by decide)

/-- C10 evaluated on a concrete run whose key file is unreadable. -/
theorem claim10_witness :
    (mainRun envG10).outCreated = true ∧
    outContent (mainRun envG10) = some [] ∧
    (mainRun envG10).trace = [] ∧
    (mainRun envG10).events.take 2 = [.inputOpened, .outputCreated] ∧
    (∃ e, (mainRun envG10).err = some e ∧
      (e = .keyReadFail ∨ e = .keyParseFail ∨ e = .notRsa ∨
        e = .decrypterFail)) :=
  claim10_output_created_first envG10 rfl rfl (Or.inl rfl)

end RsaTiming
